import Mathlib

/-!
Verification of the buddy-allocation heap of `src/core/executor/src/heap.rs`.

The Rust code is shallowly embedded: machine integers (`u32`, `usize`) are
modelled as `Nat`, with wrapping (release-build) `u32` arithmetic written as
explicit reduction modulo `2^32`; operations that can panic (out-of-bounds
indexing of the tree vector, `usize` subtraction underflow) return `Option`,
with `none` standing for the panic.  The unbounded Rust loops are given an
explicit fuel parameter; every internal call site supplies a fuel that is a
provable bound on the number of iterations, so the exhaustion branch is
unreachable there, and the search loop of `allocate_block_in_tree` takes the
fuel as an argument of the embedded function.
-/

namespace BuddyHeap

/-- Leaf block size in bytes, the constant `BLOCK_SIZE` of heap.rs. -/
def BLOCK_SIZE : Nat := 8192

/-- Modulus of wrapping `u32` arithmetic. -/
def U32 : Nat := 4294967296

/-- Node states of the implicit binary tree, the `enum Node` of heap.rs. -/
inductive Node
  | Free
  | Full
  | Split
deriving DecidableEq, Repr

/-- Association-list model of the `FnvHashMap<u32, u32>` field
`allocated_bytes`: lookup of a key. -/
def lookupMap : List (Nat × Nat) → Nat → Option Nat
  | [], _ => none
  | (k, v) :: rest, key => if k = key then some v else lookupMap rest key

/-- Map insertion; like `HashMap::insert` it overwrites an existing binding
of the same key. -/
def insertMap : List (Nat × Nat) → Nat → Nat → List (Nat × Nat)
  | [], key, val => [(key, val)]
  | (k, v) :: rest, key, val =>
      if k = key then (key, val) :: rest else (k, v) :: insertMap rest key val

/-- Map removal, like `HashMap::remove` (whose result heap.rs discards). -/
def removeMap (m : List (Nat × Nat)) (key : Nat) : List (Nat × Nat) :=
  m.filter (fun p => p.1 != key)

/-- The `Heap` struct of heap.rs. -/
structure Heap where
  allocated_bytes : List (Nat × Nat)
  levels : Nat
  tree : List Node
  total_size : Nat
deriving DecidableEq, Repr

/-- The shift-count loop of `get_tree_levels`:
`while {count_blocks >>= 1; count_blocks > 0} { counter += 1 }`.
The loop halves its argument, so `count_blocks` itself bounds the number of
iterations and is supplied as fuel by `get_tree_levels`. -/
def get_tree_levels_loop : Nat → Nat → Nat → Nat
  | 0, _, counter => counter
  | fuel + 1, count_blocks, counter =>
      if count_blocks / 2 > 0 then
        get_tree_levels_loop fuel (count_blocks / 2) (counter + 1)
      else counter

/-- `Heap::get_tree_levels` of heap.rs: `0` for `0`, otherwise the number of
times the argument can be halved before reaching `0`. -/
def get_tree_levels (count_blocks : Nat) : Nat :=
  if count_blocks = 0 then 0
  else get_tree_levels_loop count_blocks count_blocks 0

/-- `Heap::new` of heap.rs.  Note `1 << levels + 1` parses as
`1 << (levels + 1)` in Rust. -/
def Heap.new (reserved : Nat) : Heap :=
  let leaves := reserved / BLOCK_SIZE
  let levels := get_tree_levels leaves
  let node_count := 2 ^ (levels + 1) - 1
  { allocated_bytes := []
    levels := levels
    tree := List.replicate node_count Node.Free
    total_size := 0 }

/-- `Heap::get_parent_node_index` of heap.rs, `(index + 1) / 2 - 1` on
`usize`; the subtraction underflows (a panic in the builds Substrate tests,
an out-of-bounds access right after in release) when `index = 0`, which is
modelled as `none`. -/
def get_parent_node_index (index : Nat) : Option Nat :=
  if 1 ≤ (index + 1) / 2 then some ((index + 1) / 2 - 1) else none

/-- `Heap::update_parent_nodes` of heap.rs.  Reads both children (panic when
out of bounds, modelled as `none`), recomputes the node state, and recurses
on the parent up to the root.  The recursion index strictly decreases, so
`index + 1` fuel always suffices and is what every call site supplies. -/
def update_parent_nodes : Nat → List Node → Nat → Option (List Node)
  | 0, _, _ => none
  | fuel + 1, tree, index =>
      match tree[index * 2 + 1]?, tree[index * 2 + 2]? with
      | some l, some r =>
          let tree' := tree.set index
            (if l = Node.Free ∧ r = Node.Free then Node.Free
             else if l = Node.Full ∧ r = Node.Full then Node.Full
             else Node.Split)
          if index = 0 then some tree'
          else update_parent_nodes fuel tree' ((index + 1) / 2 - 1)
      | _, _ => none

/-- `Heap::free_and_merge` of heap.rs.  Sets the node `Free`; if it is not
the root and its buddy is `Free`, recurses into the parent.  The write
`self.tree[index] = Node::Free` and the buddy read are bounds-checked.
The recursion index strictly decreases, so `index + 1` fuel suffices. -/
def free_and_merge : Nat → List Node → Nat → Option (List Node)
  | 0, _, _ => none
  | fuel + 1, tree, index =>
      if index < tree.length then
        let tree' := tree.set index Node.Free
        if index = 0 then some tree'
        else
          let other_node := if index % 2 = 1 then index + 1 else index - 1
          match tree'[other_node]? with
          | none => none
          | some o =>
              if o = Node.Free then free_and_merge fuel tree' ((index + 1) / 2 - 1)
              else some tree'
      else none

/-- `Heap::free` of heap.rs.  The guard `requested_level ≤ levels` reflects
that `1 << self.levels - requested_level` underflows `u32` otherwise (the
stored sizes all passed the `levels_needed > self.levels` check at
allocation time, so the source never exercises that underflow).  The
out-of-range trace branch of the source only logs and is stateless. -/
def Heap.free (h : Heap) (block_offset count_blocks : Nat) : Option Heap :=
  let requested_level := get_tree_levels count_blocks
  if requested_level ≤ h.levels then
    let current_level_offset := 2 ^ (h.levels - requested_level) - 1
    let level_offset := block_offset / 2 ^ requested_level
    let index_offset := current_level_offset + level_offset
    match free_and_merge (index_offset + 1) h.tree index_offset with
    | none => none
    | some t1 =>
        match get_parent_node_index index_offset with
        | none => none
        | some parent =>
            match update_parent_nodes (parent + 1) t1 parent with
            | none => none
            | some t2 => some { h with tree := t2 }
  else none

/-- `Heap::deallocate` of heap.rs.  `ptr -= 1` wraps on `u32`; an unknown
pointer is a silent no-op; `checked_sub(..).unwrap_or(0)` on the running
total is exactly truncated `Nat` subtraction. -/
def Heap.deallocate (h : Heap) (ptr0 : Nat) : Option Heap :=
  let ptr := (ptr0 + U32 - 1) % U32
  match lookupMap h.allocated_bytes ptr with
  | none => some h
  | some allocated_size =>
      let count_blocks := ((allocated_size + BLOCK_SIZE - 1) % U32) / BLOCK_SIZE
      let block_offset := ptr / BLOCK_SIZE
      match h.free block_offset count_blocks with
      | none => none
      | some h' =>
          some { h' with
            allocated_bytes := removeMap h'.allocated_bytes ptr
            total_size := h'.total_size - allocated_size }

/-- The backtracking `'up` loop of `Heap::allocate_block_in_tree`: climb to
the parent until a node with a right buddy is reached, then step to that
buddy; reaching the root is allocation failure (`none`).  The index strictly
decreases, so `index + 1` fuel suffices and is supplied at the call site. -/
def loopUp : Nat → Nat → Nat → Option (Nat × Nat)
  | 0, _, _ => none
  | fuel + 1, index, current_level =>
      if index = 0 then none
      else
        let parent := (index + 1) / 2 - 1
        if parent % 2 = 1 then some (parent + 1, current_level + 1)
        else loopUp fuel parent (current_level + 1)

/-- Outcome of the `'down` loop of `Heap::allocate_block_in_tree`:
either the Rust `return None` (allocation failure, carrying the tree as
mutated so far) or a `break 'down` with the final index, level and tree. -/
inductive DownOut
  | fail (tree : List Node)
  | brk (index current_level : Nat) (tree : List Node)
deriving DecidableEq, Repr

/-- The `'down` loop of `Heap::allocate_block_in_tree` (lines 97-161 of
heap.rs), as one fueled step function; `none` is a panic or fuel
exhaustion.  At the requested level a `Free` node is claimed `Full` and the
ancestors recomputed; otherwise `Free` nodes are split and descended into,
`Split` nodes descended into, and `Full` nodes stepped over to their right
buddy when one exists — and when none exists the source does `break 'down`,
leaving the loop exactly as a successful claim would. -/
def downLoop (levels : Nat) :
    Nat → List Node → Nat → Nat → Nat → Option DownOut
  | 0, _, _, _, _ => none
  | fuel + 1, tree, index, current_level, levels_needed =>
      if current_level = levels_needed then
        match tree[index]? with
        | none => none
        | some Node.Free =>
            let tree1 := tree.set index Node.Full
            if index > 0 then
              match update_parent_nodes ((index + 1) / 2 - 1 + 1) tree1
                  ((index + 1) / 2 - 1) with
              | none => none
              | some tree2 => some (DownOut.brk index current_level tree2)
            else some (DownOut.brk index current_level tree1)
        | some _ =>
            if index % 2 = 1 then
              downLoop levels fuel tree (index + 1) current_level levels_needed
            else
              match loopUp (index + 1) index current_level with
              | none => some (DownOut.fail tree)
              | some (i, l) => downLoop levels fuel tree i l levels_needed
      else
        match tree[index]? with
        | none => none
        | some Node.Full =>
            if index % 2 = 1 then
              downLoop levels fuel tree (index + 1) current_level levels_needed
            else some (DownOut.brk index current_level tree)
        | some Node.Free =>
            downLoop levels fuel (tree.set index Node.Split) (index * 2 + 1)
              (current_level - 1) levels_needed
        | some Node.Split =>
            downLoop levels fuel tree (index * 2 + 1) (current_level - 1)
              levels_needed

/-- `Heap::allocate_block_in_tree` of heap.rs.  Result `some (none, h)` is
the Rust `None` (with the tree as the loop left it), `some (some off, h)`
the Rust `Some(off)`. -/
def Heap.allocate_block_in_tree (fuel : Nat) (h : Heap) (blocks_needed : Nat) :
    Option (Option Nat × Heap) :=
  let levels_needed := get_tree_levels blocks_needed
  if levels_needed > h.levels then some (none, h)
  else
    match downLoop h.levels fuel h.tree 0 h.levels levels_needed with
    | none => none
    | some (DownOut.fail t) => some (none, { h with tree := t })
    | some (DownOut.brk index current_level t) =>
        let current_level_offset := 2 ^ (h.levels - current_level) - 1
        let level_offset := index - current_level_offset
        let block_offset := level_offset * 2 ^ current_level
        some (some block_offset, { h with tree := t })

/-- `Heap::allocate` of heap.rs.  `size + BLOCK_SIZE - 1` and
`total_size += size` wrap on `u32`; failure of the tree search returns the
sentinel `0` before the table or the running total is touched. -/
def Heap.allocate (fuel : Nat) (h : Heap) (size : Nat) : Option (Nat × Heap) :=
  let blocks_needed := ((size + BLOCK_SIZE - 1) % U32) / BLOCK_SIZE
  match h.allocate_block_in_tree fuel blocks_needed with
  | none => none
  | some (none, h') => some (0, h')
  | some (some block_offset, h') =>
      let ptr := (BLOCK_SIZE * block_offset) % U32
      some ((ptr + 1) % U32,
        { h' with
          allocated_bytes := insertMap h'.allocated_bytes ptr size
          total_size := (h'.total_size + size) % U32 })

/-! ### Arithmetic characterisation of `get_tree_levels` -/

theorem get_tree_levels_loop_eq (fuel : Nat) :
    ∀ n c : Nat, n ≤ fuel → 0 < n →
      get_tree_levels_loop fuel n c = c + Nat.log2 n := by
  induction fuel with
  | zero => intro n c hf hn; omega
  | succ f ih =>
      intro n c hf hn
      rw [get_tree_levels_loop]
      by_cases h2 : n / 2 > 0
      · rw [if_pos h2, ih (n / 2) (c + 1) (by omega) h2]
        have hlog : Nat.log2 n = Nat.log2 (n / 2) + 1 := by
          rw [Nat.log2]
          simp only [if_pos (show 2 ≤ n by omega)]
        omega
      · rw [if_neg h2]
        have hn1 : n = 1 := by omega
        subst hn1
        rw [Nat.log2]
        norm_num

theorem get_tree_levels_eq_log2 (n : Nat) : get_tree_levels n = Nat.log2 n := by
  rw [get_tree_levels]
  by_cases h : n = 0
  · subst h
    rw [Nat.log2]
    norm_num
  · rw [if_neg h, get_tree_levels_loop_eq n n 0 le_rfl (by omega)]
    omega

/-- A request whose needed level exceeds the heap height makes
`allocate_block_in_tree` bail out with `None` before touching anything. -/
theorem allocate_block_in_tree_too_big (fuel : Nat) (h : Heap) (b : Nat)
    (hgt : h.levels < get_tree_levels b) :
    h.allocate_block_in_tree fuel b = some (none, h) := by
  unfold Heap.allocate_block_in_tree
  rw [if_pos hgt]

/-- A request whose needed level exceeds the heap height makes `allocate`
return the sentinel `0` with the heap unchanged. -/
theorem allocate_too_big (fuel : Nat) (h : Heap) (size : Nat)
    (hgt : h.levels <
      get_tree_levels ((size + BLOCK_SIZE - 1) % U32 / BLOCK_SIZE)) :
    Heap.allocate fuel h size = some (0, h) := by
  have h1 := allocate_block_in_tree_too_big fuel h
    ((size + BLOCK_SIZE - 1) % U32 / BLOCK_SIZE) hgt
  unfold Heap.allocate
  simp only [h1]

/-- Claim C1 (corrected): `get_tree_levels` is the floor, not the ceiling,
of the base-2 logarithm: it returns `0` on `0`, and on positive `n` the
largest `k` with `2^k ≤ n`, so `2^k ≤ n < 2^(k+1)`. -/
theorem c1_floor_log2 :
    get_tree_levels 0 = 0 ∧
    ∀ n : Nat, 0 < n →
      2 ^ get_tree_levels n ≤ n ∧ n < 2 ^ (get_tree_levels n + 1) := by
  refine ⟨rfl, fun n hn => ?_⟩
  rw [get_tree_levels_eq_log2]
  exact ⟨Nat.log2_self_le (by omega), Nat.lt_log2_self⟩

theorem c1_floor_log2_witness :
    (0 < 4) ∧ 2 ^ get_tree_levels 4 ≤ 4 ∧ 4 < 2 ^ (get_tree_levels 4 + 1) :=
  ⟨by decide, c1_floor_log2.2 4 (by decide)⟩

/-- Claim C1, counterexample to the claim as stated: at `n = 3` the
smallest `k` with `2^k ≥ 3` is `2`, but `get_tree_levels 3 = 1`, and
`2^1 ≥ 3` fails. -/
theorem c1_not_ceil_log2 :
    get_tree_levels 3 = 1 ∧ ¬ (3 ≤ 2 ^ get_tree_levels 3) := by decide

/-- Claim C2 (code bug): on a heap with `levels = 2` (capacity
`2^2 · BLOCK_SIZE = 32768` bytes), the request `allocate 32769` exceeds
the capacity bound yet succeeds with handle `1`, mutating the tree, the
table and the running total, because `get_tree_levels` rounds the needed
level down instead of up. -/
theorem c2_oversized_request_succeeds :
    2 ^ (Heap.new (4 * BLOCK_SIZE)).levels * BLOCK_SIZE < 32769 ∧
    Heap.allocate 100 (Heap.new (4 * BLOCK_SIZE)) 32769 =
      some (1, ⟨[(0, 32769)], 2,
        [Node.Full, Node.Free, Node.Free, Node.Free, Node.Free, Node.Free,
         Node.Free], 32769⟩) := by decide

/-- Claim C3 (code bug): after `new (2 · BLOCK_SIZE)` and a successful
`allocate 16384` returning handle `1`, a second `allocate 5` — with the
first allocation still live — again returns handle `1`: the `Full` branch
of the descent does `break 'down` when the node has no right buddy and
hands out the offset of the already-allocated root block.  The two live
byte ranges `[0, 16384)` and `[0, 5)` overlap. -/
theorem c3_live_allocations_overlap :
    Heap.allocate 100 (Heap.new (2 * BLOCK_SIZE)) 16384 =
      some (1, ⟨[(0, 16384)], 1, [Node.Full, Node.Free, Node.Free], 16384⟩) ∧
    Heap.allocate 100
        ⟨[(0, 16384)], 1, [Node.Full, Node.Free, Node.Free], 16384⟩ 5 =
      some (1, ⟨[(0, 5)], 1, [Node.Full, Node.Free, Node.Free], 16389⟩) := by
  decide

/-- Claim C4 (code bug): a failing `allocate` can mutate the tree.  On the
state with `levels = 1` and tree `[Free, Full, Full]`, `allocate 8192`
returns the failure sentinel `0` but has marked the root `Split` on the way
down, leaving the tree changed. -/
theorem c4_failed_allocate_mutates_tree :
    Heap.allocate 100 (⟨[], 1, [Node.Free, Node.Full, Node.Full], 0⟩ : Heap)
        8192 =
      some (0, ⟨[], 1, [Node.Split, Node.Full, Node.Full], 0⟩) ∧
    [Node.Split, Node.Full, Node.Full] ≠ [Node.Free, Node.Full, Node.Full] := by
  decide

/-- Claim C6, counterexample to the claim as stated: a zero-sized heap
(`reserved = 20 < BLOCK_SIZE`) does not refuse every allocation —
`allocate 5` succeeds and returns handle `1` (this is the source's own
`first_pointer_should_be_one` test). -/
theorem c6_zero_heap_allocate_succeeds :
    20 < BLOCK_SIZE ∧
    Heap.allocate 100 (Heap.new 20) 5 =
      some (1, ⟨[(0, 5)], 0, [Node.Full], 5⟩) := by decide

/-- Claim C6 (amended): construction always succeeds and a zero-sized heap
has `levels = 0` with the one-node tree `[Free]`; every allocation whose
size exceeds `BLOCK_SIZE` (without overflowing the wrapping `u32` rounding,
i.e. `size + BLOCK_SIZE ≤ 2^32`) needs at least two blocks, hence a level
above `0`, and returns the sentinel `0` leaving the heap unchanged —
but one-block requests can still succeed, as the counterexample shows. -/
theorem c6_zero_heap_amended (reserved size fuel : Nat)
    (hr : reserved < BLOCK_SIZE) (hs : BLOCK_SIZE < size)
    (hsU : size + BLOCK_SIZE ≤ U32) :
    (Heap.new reserved).levels = 0 ∧
    (Heap.new reserved).tree = [Node.Free] ∧
    Heap.allocate fuel (Heap.new reserved) size = some (0, Heap.new reserved) := by
  have hleaves : reserved / BLOCK_SIZE = 0 := Nat.div_eq_of_lt hr
  have hnew : Heap.new reserved = ⟨[], 0, [Node.Free], 0⟩ := by
    rw [Heap.new]
    simp [hleaves, get_tree_levels]
  refine ⟨by rw [hnew], by rw [hnew], ?_⟩
  have hmod : (size + BLOCK_SIZE - 1) % U32 = size + BLOCK_SIZE - 1 := by
    refine Nat.mod_eq_of_lt ?_
    unfold BLOCK_SIZE U32 at *
    omega
  have hblocks : 2 ≤ (size + BLOCK_SIZE - 1) % U32 / BLOCK_SIZE := by
    rw [hmod]
    unfold BLOCK_SIZE at *
    omega
  have hlev : 0 < get_tree_levels ((size + BLOCK_SIZE - 1) % U32 / BLOCK_SIZE) := by
    rw [get_tree_levels_eq_log2]
    by_contra hcon
    have h0 : Nat.log2 ((size + BLOCK_SIZE - 1) % U32 / BLOCK_SIZE) = 0 := by omega
    have hlt := Nat.lt_log2_self (n := (size + BLOCK_SIZE - 1) % U32 / BLOCK_SIZE)
    rw [h0] at hlt
    omega
  rw [hnew]
  exact allocate_too_big fuel ⟨[], 0, [Node.Free], 0⟩ size hlev

/-- Witness for the amended claim C6 at `reserved = 20`, `size = 20000`. -/
theorem c6_zero_heap_amended_witness :
    (20 : Nat) < BLOCK_SIZE ∧ BLOCK_SIZE < 20000 ∧ 20000 + BLOCK_SIZE ≤ U32 ∧
    Heap.allocate 100 (Heap.new 20) 20000 = some (0, Heap.new 20) :=
  ⟨by decide, by decide, by decide,
    (c6_zero_heap_amended 20 20000 100 (by decide) (by decide) (by decide)).2.2⟩

/-- Claim C8 (confirmed): deallocation of a handle whose wrapped `- 1`
offset is not a key of the live-size table returns normally (no panic) and
leaves the heap — tree, table and running total — exactly as it was. -/
theorem c8_unknown_handle_noop (h : Heap) (ptr : Nat)
    (hun : lookupMap h.allocated_bytes ((ptr + U32 - 1) % U32) = none) :
    h.deallocate ptr = some h := by
  rw [Heap.deallocate]
  simp only
  rw [hun]

/-- Witness for claim C8 on a fresh heap and the unknown handle `5`
(the source's `deallocation_for_nonexistent_pointer_should_not_panic`
test). -/
theorem c8_unknown_handle_noop_witness :
    lookupMap (Heap.new 20).allocated_bytes ((5 + U32 - 1) % U32) = none ∧
    (Heap.new 20).deallocate 5 = some (Heap.new 20) :=
  ⟨by decide, c8_unknown_handle_noop (Heap.new 20) 5 (by decide)⟩

/-- The tree search mutates only the tree: table, height and running total
of the heap it returns are those of the heap it was given. -/
theorem allocate_block_in_tree_state (fuel : Nat) (h : Heap) (b : Nat)
    (r : Option Nat) (h' : Heap)
    (heq : h.allocate_block_in_tree fuel b = some (r, h')) :
    h'.allocated_bytes = h.allocated_bytes ∧ h'.levels = h.levels ∧
    h'.total_size = h.total_size := by
  unfold Heap.allocate_block_in_tree at heq
  dsimp only at heq
  split at heq
  · cases heq
    exact ⟨rfl, rfl, rfl⟩
  · split at heq
    · exact Option.noConfusion heq
    · cases heq
      exact ⟨rfl, rfl, rfl⟩
    · cases heq
      exact ⟨rfl, rfl, rfl⟩

/-- Claim C5 (confirmed): when the tree search finds no fitting free block
(the Rust `None`), `allocate` returns exactly the sentinel `0`, and the
live-size table and the running `total_size` are unchanged. -/
theorem c5_failure_returns_zero_and_preserves_table (fuel : Nat) (h : Heap)
    (size : Nat) (h₁ : Heap)
    (hfail : h.allocate_block_in_tree fuel
        ((size + BLOCK_SIZE - 1) % U32 / BLOCK_SIZE) = some (none, h₁)) :
    Heap.allocate fuel h size = some (0, h₁) ∧
    h₁.allocated_bytes = h.allocated_bytes ∧
    h₁.total_size = h.total_size := by
  have hst := allocate_block_in_tree_state fuel h _ none h₁ hfail
  refine ⟨?_, hst.1, hst.2.2⟩
  unfold Heap.allocate
  simp only [hfail]

/-- Witness for claim C5: a three-block request on a zero-sized heap. -/
theorem c5_failure_witness :
    (Heap.new 20).allocate_block_in_tree 100
        ((20000 + BLOCK_SIZE - 1) % U32 / BLOCK_SIZE) = some (none, Heap.new 20) ∧
    Heap.allocate 100 (Heap.new 20) 20000 = some (0, Heap.new 20) :=
  ⟨by decide,
    (c5_failure_returns_zero_and_preserves_table 100 (Heap.new 20) 20000
      (Heap.new 20) (by decide)).1⟩

/-- Claim C7 (confirmed): for `reserved ≥ BLOCK_SIZE`, construction yields
`levels = ⌊log₂(reserved / BLOCK_SIZE)⌋`, a tree of `2^(levels+1) − 1`
nodes all `Free`, an empty live-size table and a zero running total; and a
`reserved` that is not a block multiple behaves exactly like the largest
multiple below it. -/
theorem c7_construction (reserved : Nat) (_hr : BLOCK_SIZE ≤ reserved) :
    (Heap.new reserved).levels = Nat.log2 (reserved / BLOCK_SIZE) ∧
    (Heap.new reserved).tree =
      List.replicate (2 ^ ((Heap.new reserved).levels + 1) - 1) Node.Free ∧
    (Heap.new reserved).tree.length = 2 ^ ((Heap.new reserved).levels + 1) - 1 ∧
    (Heap.new reserved).allocated_bytes = [] ∧
    (Heap.new reserved).total_size = 0 ∧
    Heap.new reserved = Heap.new (BLOCK_SIZE * (reserved / BLOCK_SIZE)) := by
  have hlev : (Heap.new reserved).levels = get_tree_levels (reserved / BLOCK_SIZE) :=
    rfl
  refine ⟨by rw [hlev, get_tree_levels_eq_log2], rfl, ?_, rfl, rfl, ?_⟩
  · simp [Heap.new]
  · have hq : BLOCK_SIZE * (reserved / BLOCK_SIZE) / BLOCK_SIZE =
        reserved / BLOCK_SIZE :=
      Nat.mul_div_cancel_left _ (by decide)
    unfold Heap.new
    rw [hq]

/-- Witness for claim C7 at `reserved = 4·BLOCK_SIZE + 1` (the source's
`should_round_tree_size_to_nearest_possible` test). -/
theorem c7_construction_witness :
    BLOCK_SIZE ≤ 4 * BLOCK_SIZE + 1 ∧
    (Heap.new (4 * BLOCK_SIZE + 1)).levels =
      Nat.log2 ((4 * BLOCK_SIZE + 1) / BLOCK_SIZE) ∧
    Heap.new (4 * BLOCK_SIZE + 1) =
      Heap.new (BLOCK_SIZE * ((4 * BLOCK_SIZE + 1) / BLOCK_SIZE)) :=
  ⟨by decide, (c7_construction (4 * BLOCK_SIZE + 1) (by decide)).1,
    (c7_construction (4 * BLOCK_SIZE + 1) (by decide)).2.2.2.2.2⟩

/-! ### In-bounds lemmas for the release path -/

/-- `free_and_merge` preserves the length of the tree. -/
theorem free_and_merge_length (fuel : Nat) :
    ∀ (tree : List Node) (index : Nat) (t' : List Node),
      free_and_merge fuel tree index = some t' → t'.length = tree.length := by
  induction fuel with
  | zero => intro tree index t' heq; exact Option.noConfusion heq
  | succ f ih =>
      intro tree index t' heq
      simp only [free_and_merge] at heq
      split at heq
      · split at heq
        · cases heq
          simp
        · split at heq
          · exact Option.noConfusion heq
          · split at heq
            · have := ih _ _ _ heq
              simp_all
            · cases heq
              simp
      · exact Option.noConfusion heq

/-- On a tree of odd length, `free_and_merge` at an in-range index panics
nowhere: the node write, the buddy read and the whole merge recursion stay
in bounds. -/
theorem free_and_merge_isSome (fuel : Nat) :
    ∀ (tree : List Node) (index : Nat), index < fuel → index < tree.length →
      tree.length % 2 = 1 → (free_and_merge fuel tree index).isSome := by
  induction fuel with
  | zero => intro tree index hf _ _; omega
  | succ f ih =>
      intro tree index hf hlen hodd
      simp only [free_and_merge]
      rw [if_pos hlen]
      by_cases h0 : index = 0
      · rw [if_pos h0]
        simp
      · rw [if_neg h0]
        have hob : (if index % 2 = 1 then index + 1 else index - 1) <
            (tree.set index Node.Free).length := by
          rw [List.length_set]
          split <;> omega
        cases hel : (tree.set index
            Node.Free)[(if index % 2 = 1 then index + 1 else index - 1)]? with
        | none =>
            have hsome := List.getElem?_eq_getElem hob
            rw [hel] at hsome
            exact Option.noConfusion hsome
        | some o =>
            dsimp only
            by_cases ho : o = Node.Free
            · rw [if_pos ho]
              apply ih
              · omega
              · rw [List.length_set]
                omega
              · rw [List.length_set]
                exact hodd
            · rw [if_neg ho]
              simp

/-- `update_parent_nodes` panics nowhere when the starting node has both
children in range: all reads, writes and the recursion to the root stay in
bounds. -/
theorem update_parent_nodes_isSome (fuel : Nat) :
    ∀ (tree : List Node) (index : Nat), index < fuel →
      index * 2 + 2 < tree.length → (update_parent_nodes fuel tree index).isSome := by
  induction fuel with
  | zero => intro tree index hf _; omega
  | succ f ih =>
      intro tree index hf hch
      simp only [update_parent_nodes]
      have h1 : index * 2 + 1 < tree.length := by omega
      rw [List.getElem?_eq_getElem h1, List.getElem?_eq_getElem hch]
      dsimp only
      by_cases h0 : index = 0
      · rw [if_pos h0]
        simp
      · rw [if_neg h0]
        apply ih
        · omega
        · rw [List.length_set]
          omega

/-- `Heap.free` completes without a panic whenever the computed tree index
is nonzero and in range for an odd-length tree. -/
theorem free_isSome (h : Heap) (boff cblocks : Nat)
    (hlev : get_tree_levels cblocks ≤ h.levels)
    (hidx1 : 1 ≤ 2 ^ (h.levels - get_tree_levels cblocks) - 1 +
      boff / 2 ^ get_tree_levels cblocks)
    (hidx2 : 2 ^ (h.levels - get_tree_levels cblocks) - 1 +
      boff / 2 ^ get_tree_levels cblocks < h.tree.length)
    (hodd : h.tree.length % 2 = 1) :
    (h.free boff cblocks).isSome := by
  unfold Heap.free
  rw [if_pos hlev]
  dsimp only
  have hfamS := free_and_merge_isSome
    (2 ^ (h.levels - get_tree_levels cblocks) - 1 +
      boff / 2 ^ get_tree_levels cblocks + 1) h.tree
    (2 ^ (h.levels - get_tree_levels cblocks) - 1 +
      boff / 2 ^ get_tree_levels cblocks) (by omega) hidx2 hodd
  obtain ⟨t1, ht1⟩ := Option.isSome_iff_exists.mp hfamS
  rw [ht1]
  dsimp only
  rw [get_parent_node_index, if_pos (by omega : 1 ≤
    (2 ^ (h.levels - get_tree_levels cblocks) - 1 +
      boff / 2 ^ get_tree_levels cblocks + 1) / 2)]
  dsimp only
  have hlen1 : t1.length = h.tree.length := free_and_merge_length _ _ _ _ ht1
  have hupdS := update_parent_nodes_isSome
    ((2 ^ (h.levels - get_tree_levels cblocks) - 1 +
      boff / 2 ^ get_tree_levels cblocks + 1) / 2 - 1 + 1) t1
    ((2 ^ (h.levels - get_tree_levels cblocks) - 1 +
      boff / 2 ^ get_tree_levels cblocks + 1) / 2 - 1)
    (by omega) (by rw [hlen1]; omega)
  obtain ⟨t2, ht2⟩ := Option.isSome_iff_exists.mp hupdS
  rw [ht2]
  simp

/-- Claim C9, counterexample to the claim as stated: the offset key `0` is
stored by the successful root-level allocation `allocate 16384` on
`new (2 · BLOCK_SIZE)`, yet deallocating its handle computes tree index
`0` in `free`, and the unguarded parent computation
`(0 + 1) / 2 - 1` underflows `usize`, after which the parent update
accesses the tree out of bounds (a panic, modelled as `none`). -/
theorem c9_root_level_dealloc_out_of_bounds :
    Heap.allocate 100 (Heap.new (2 * BLOCK_SIZE)) 16384 =
      some (1, ⟨[(0, 16384)], 1, [Node.Full, Node.Free, Node.Free], 16384⟩) ∧
    Heap.deallocate
      ⟨[(0, 16384)], 1, [Node.Full, Node.Free, Node.Free], 16384⟩ 1 = none := by
  decide

/-- Claim C9 (amended): for a heap whose tree has its declared
`2^(levels+1) − 1` length and any table entry whose stored size yields a
release level `≤ levels` and whose block offset lies among the `2^levels`
usable blocks, the tree index computed in `free` is within bounds — the
out-of-range warning branch cannot fire — and, provided that index is
nonzero, every access of `free_and_merge` and `update_parent_nodes` during
the deallocation is in bounds; the index-zero case (an allocation spanning
the whole tree, which a root-level `allocate` does store) instead
underflows in the parent computation, as the counterexample shows. -/
theorem c9_inbounds_amended (h : Heap) (block_offset count_blocks : Nat)
    (hlen : h.tree.length = 2 ^ (h.levels + 1) - 1)
    (hlev : get_tree_levels count_blocks ≤ h.levels)
    (hoff : block_offset < 2 ^ h.levels)
    (hnz : 1 ≤ 2 ^ (h.levels - get_tree_levels count_blocks) - 1 +
      block_offset / 2 ^ get_tree_levels count_blocks) :
    2 ^ (h.levels - get_tree_levels count_blocks) - 1 +
      block_offset / 2 ^ get_tree_levels count_blocks ≤ h.tree.length - 1 ∧
    (h.free block_offset count_blocks).isSome := by
  have hpow : (2 : Nat) ^ (h.levels - get_tree_levels count_blocks) *
      2 ^ get_tree_levels count_blocks = 2 ^ h.levels := by
    rw [← pow_add]
    congr 1
    omega
  have hlo : block_offset / 2 ^ get_tree_levels count_blocks <
      2 ^ (h.levels - get_tree_levels count_blocks) := by
    rw [Nat.div_lt_iff_lt_mul (Nat.pos_pow_of_pos _ (by omega))]
    omega
  have e1 : (2 : Nat) ^ (h.levels - get_tree_levels count_blocks) ≤
      2 ^ h.levels :=
    Nat.pow_le_pow_right (by omega) (by omega)
  have e2 : (2 : Nat) ^ (h.levels + 1) = 2 * 2 ^ h.levels := by
    rw [pow_succ]
    omega
  have e3 : (1 : Nat) ≤ 2 ^ h.levels := Nat.one_le_two_pow
  have hidx2 : 2 ^ (h.levels - get_tree_levels count_blocks) - 1 +
      block_offset / 2 ^ get_tree_levels count_blocks < h.tree.length := by
    omega
  have hodd : h.tree.length % 2 = 1 := by omega
  exact ⟨by omega, free_isSome h block_offset count_blocks hlev hnz hidx2 hodd⟩

/-- Witness for the amended claim C9: a one-block entry at offset `0` on a
two-block heap whose left leaf is allocated. -/
theorem c9_inbounds_amended_witness :
    2 ^ (1 - get_tree_levels 1) - 1 + 0 / 2 ^ get_tree_levels 1 ≤
      ((⟨[(0, 5)], 1, [Node.Split, Node.Full, Node.Free], 5⟩ : Heap)).tree.length - 1 ∧
    ((⟨[(0, 5)], 1, [Node.Split, Node.Full, Node.Free], 5⟩ : Heap).free 0 1).isSome :=
  c9_inbounds_amended ⟨[(0, 5)], 1, [Node.Split, Node.Full, Node.Free], 5⟩ 0 1
    (by decide) (by decide) (by decide) (by decide)

/-! ### The descent of `allocate 0` on a fresh heap (claim C10) -/

/-- Fresh tree of height `L` with the first `k` nodes of the leftmost spine
marked `Split`: the intermediate trees of the descent of `allocate 0`. -/
def spineTree (L : Nat) : Nat → List Node
  | 0 => List.replicate (2 ^ (L + 1) - 1) Node.Free
  | k + 1 => (spineTree L k).set (2 ^ k - 1) Node.Split

/-- Tree left by `allocate 0` on a fresh heap of height `L`: the whole
leftmost spine `Split` and the leftmost leaf `Full`. -/
def allocZeroTree (L : Nat) : List Node :=
  (spineTree L L).set (2 ^ L - 1) Node.Full

theorem spineTree_length (L k : Nat) :
    (spineTree L k).length = 2 ^ (L + 1) - 1 := by
  induction k with
  | zero => simp [spineTree]
  | succ k ih => simp [spineTree, ih]

theorem spineTree_get_spine (L : Nat) :
    ∀ k e, e < k → k ≤ L → (spineTree L k)[2 ^ e - 1]? = some Node.Split := by
  intro k
  induction k with
  | zero => intro e he _; omega
  | succ k ih =>
      intro e he hk
      simp only [spineTree]
      by_cases hek : e = k
      · subst hek
        refine List.getElem?_set_eq_of_lt _ ?_
        rw [spineTree_length]
        have h1 : (2 : Nat) ^ e < 2 ^ (L + 1) :=
          Nat.pow_lt_pow_right (by omega) (by omega)
        have h2 : (1 : Nat) ≤ 2 ^ e := Nat.one_le_two_pow
        omega
      · rw [List.getElem?_set_ne]
        · exact ih e (by omega) (by omega)
        · have h1 : (2 : Nat) ^ e < 2 ^ k :=
            Nat.pow_lt_pow_right (by omega) (by omega)
          have h2 : (1 : Nat) ≤ 2 ^ e := Nat.one_le_two_pow
          omega

theorem spineTree_get_free (L : Nat) :
    ∀ k j, j < 2 ^ (L + 1) - 1 → (∀ e, e < k → j ≠ 2 ^ e - 1) →
      (spineTree L k)[j]? = some Node.Free := by
  intro k
  induction k with
  | zero =>
      intro j hj _
      simp [spineTree, List.getElem?_replicate, hj]
  | succ k ih =>
      intro j hj hne
      simp only [spineTree]
      rw [List.getElem?_set_ne (Ne.symm (hne k (by omega)))]
      exact ih j hj (fun e he => hne e (by omega))

/-- Replacing an entry of a list by the value it already holds is the
identity. -/
theorem list_set_getElem?_eq {α : Type} (l : List α) (i : Nat) (v : α)
    (h : l[i]? = some v) : l.set i v = l := by
  apply List.ext_getElem?
  intro n
  by_cases hn : n = i
  · subst hn
    rw [List.getElem?_set_self', h]
    rfl
  · rw [List.getElem?_set_ne (Ne.symm hn)]

theorem allocZeroTree_length (L : Nat) :
    (allocZeroTree L).length = 2 ^ (L + 1) - 1 := by
  simp [allocZeroTree, spineTree_length]

theorem allocZeroTree_get_full (L : Nat) :
    (allocZeroTree L)[2 ^ L - 1]? = some Node.Full := by
  refine List.getElem?_set_eq_of_lt _ ?_
  rw [spineTree_length]
  have h1 : (2 : Nat) ^ L < 2 ^ (L + 1) :=
    Nat.pow_lt_pow_right (by omega) (by omega)
  have h2 : (1 : Nat) ≤ 2 ^ L := Nat.one_le_two_pow
  omega

theorem allocZeroTree_get_spine (L e : Nat) (he : e < L) :
    (allocZeroTree L)[2 ^ e - 1]? = some Node.Split := by
  rw [allocZeroTree, List.getElem?_set_ne]
  · exact spineTree_get_spine L L e he le_rfl
  · have h1 : (2 : Nat) ^ e < 2 ^ L := Nat.pow_lt_pow_right (by omega) he
    have h2 : (1 : Nat) ≤ 2 ^ e := Nat.one_le_two_pow
    omega

theorem allocZeroTree_get_free (L j : Nat) (hj : j < 2 ^ (L + 1) - 1)
    (hfull : j ≠ 2 ^ L - 1) (hspine : ∀ e, e < L → j ≠ 2 ^ e - 1) :
    (allocZeroTree L)[j]? = some Node.Free := by
  rw [allocZeroTree, List.getElem?_set_ne (Ne.symm hfull)]
  exact spineTree_get_free L L j hj hspine

/-- The recomputed state of a node with a non-free left child and a
non-full right child is `Split`. -/
theorem node_value_split (l r : Node) (hl : l ≠ Node.Free) (hr : r ≠ Node.Full) :
    (if l = Node.Free ∧ r = Node.Free then Node.Free
     else if l = Node.Full ∧ r = Node.Full then Node.Full
     else Node.Split) = Node.Split := by
  rw [if_neg (by simp [hl]), if_neg (by simp [hr])]

/-- Left child of spine node `k`: the claimed leaf when `k + 1 = L`, an
inner spine node otherwise. -/
theorem left_child_val (L k : Nat) (hk : k < L) :
    (allocZeroTree L)[2 ^ (k + 1) - 1]? =
      some (if k + 1 = L then Node.Full else Node.Split) := by
  by_cases h : k + 1 = L
  · subst h
    rw [if_pos rfl]
    exact allocZeroTree_get_full (k + 1)
  · rw [if_neg h]
    exact allocZeroTree_get_spine L (k + 1) (by omega)

/-- Right child of spine node `k` is still `Free` after `allocate 0`. -/
theorem right_child_free (L k : Nat) (hk : k < L) :
    (allocZeroTree L)[2 ^ (k + 1)]? = some Node.Free := by
  apply allocZeroTree_get_free
  · have h1 : (2 : Nat) ^ (k + 1) ≤ 2 ^ L := Nat.pow_le_pow_right (by omega) (by omega)
    have h2 : (2 : Nat) ^ (L + 1) = 2 ^ L * 2 := pow_succ 2 L
    have h3 : (1 : Nat) ≤ 2 ^ L := Nat.one_le_two_pow
    omega
  · have h1 : (2 : Nat) ^ (k + 1) = 2 ^ k * 2 := pow_succ 2 k
    have h2 : (2 : Nat) ^ L = 2 ^ (L - 1) * 2 := by
      conv_lhs => rw [show L = L - 1 + 1 by omega]
      exact pow_succ 2 (L - 1)
    have h3 : (1 : Nat) ≤ 2 ^ (L - 1) := Nat.one_le_two_pow
    omega
  · intro e he
    by_cases he0 : e = 0
    · subst he0
      have h1 : (1 : Nat) ≤ 2 ^ k := Nat.one_le_two_pow
      have h2 : (2 : Nat) ^ (k + 1) = 2 ^ k * 2 := pow_succ 2 k
      omega
    · obtain ⟨e', rfl⟩ : ∃ e', e = e' + 1 := ⟨e - 1, by omega⟩
      have h1 : (2 : Nat) ^ (e' + 1) = 2 ^ e' * 2 := pow_succ 2 e'
      have h2 : (2 : Nat) ^ (k + 1) = 2 ^ k * 2 := pow_succ 2 k
      have h3 : (1 : Nat) ≤ 2 ^ e' := Nat.one_le_two_pow
      omega

/-- After the leftmost leaf is claimed, the parent-update walk along the
spine recomputes every spine node to the `Split` it already holds, leaving
the tree unchanged. -/
theorem update_walk (L : Nat) :
    ∀ k, k < L → ∀ fuel, k < fuel →
      update_parent_nodes fuel (allocZeroTree L) (2 ^ k - 1) =
        some (allocZeroTree L) := by
  intro k
  induction k with
  | zero =>
      intro hk fuel hf
      obtain ⟨f, rfl⟩ : ∃ f, fuel = f + 1 := ⟨fuel - 1, by omega⟩
      simp only [update_parent_nodes]
      have hli : (2 ^ 0 - 1) * 2 + 1 = 2 ^ (0 + 1) - 1 := by norm_num
      have hri : (2 ^ 0 - 1) * 2 + 2 = 2 ^ (0 + 1) := by norm_num
      rw [hli, hri, left_child_val L 0 hk, right_child_free L 0 hk]
      dsimp only
      rw [node_value_split _ _ (by split <;> simp) (by simp)]
      rw [if_pos (show (2 : Nat) ^ 0 - 1 = 0 by norm_num)]
      rw [list_set_getElem?_eq _ _ _ (allocZeroTree_get_spine L 0 hk)]
  | succ k ih =>
      intro hk fuel hf
      obtain ⟨f, rfl⟩ : ∃ f, fuel = f + 1 := ⟨fuel - 1, by omega⟩
      simp only [update_parent_nodes]
      have h1 : (1 : Nat) ≤ 2 ^ (k + 1) := Nat.one_le_two_pow
      have hps : (2 : Nat) ^ (k + 1 + 1) = 2 ^ (k + 1) * 2 := pow_succ 2 (k + 1)
      have hli : (2 ^ (k + 1) - 1) * 2 + 1 = 2 ^ (k + 1 + 1) - 1 := by omega
      have hri : (2 ^ (k + 1) - 1) * 2 + 2 = 2 ^ (k + 1 + 1) := by omega
      rw [hli, hri, left_child_val L (k + 1) hk, right_child_free L (k + 1) hk]
      dsimp only
      rw [node_value_split _ _ (by split <;> simp) (by simp)]
      have h2 : (2 : Nat) ^ (k + 1) = 2 ^ k * 2 := pow_succ 2 k
      have h3 : (1 : Nat) ≤ 2 ^ k := Nat.one_le_two_pow
      rw [if_neg (show ¬ (2 ^ (k + 1) - 1 = 0) by omega)]
      rw [list_set_getElem?_eq _ _ _ (allocZeroTree_get_spine L (k + 1) hk)]
      rw [show (2 ^ (k + 1) - 1 + 1) / 2 - 1 = 2 ^ k - 1 by omega]
      exact ih (by omega) f (by omega)

/-- The descent of `allocate 0` on a fresh heap: starting anywhere on the
leftmost spine with all deeper spine nodes `Free`, it splits its way down
to the leftmost leaf, claims it `Full` and updates the ancestors, ending
in exactly `allocZeroTree`. -/
theorem downLoop_spine (L : Nat) :
    ∀ c k fuel, c + k = L →
      downLoop L (fuel + c + 1) (spineTree L k) (2 ^ k - 1) c 0 =
        some (DownOut.brk (2 ^ L - 1) 0 (allocZeroTree L)) := by
  intro c
  induction c with
  | zero =>
      intro k fuel hk
      have hkL : k = L := by omega
      subst hkL
      rw [downLoop]
      rw [if_pos rfl]
      have hfree : (spineTree k k)[2 ^ k - 1]? = some Node.Free := by
        apply spineTree_get_free
        · have h1 : (2 : Nat) ^ k < 2 ^ (k + 1) :=
            Nat.pow_lt_pow_right (by omega) (by omega)
          have h2 : (1 : Nat) ≤ 2 ^ k := Nat.one_le_two_pow
          omega
        · intro e he
          have h1 : (2 : Nat) ^ e < 2 ^ k := Nat.pow_lt_pow_right (by omega) he
          have h2 : (1 : Nat) ≤ 2 ^ e := Nat.one_le_two_pow
          omega
      rw [hfree]
      dsimp only
      rw [show (spineTree k k).set (2 ^ k - 1) Node.Full = allocZeroTree k from rfl]
      by_cases hk0 : k = 0
      · subst hk0
        rw [if_neg (by norm_num)]
      · have hps : (2 : Nat) ^ k = 2 ^ (k - 1) * 2 := by
          conv_lhs => rw [show k = k - 1 + 1 by omega]
          exact pow_succ 2 (k - 1)
        have h1 : (1 : Nat) ≤ 2 ^ (k - 1) := Nat.one_le_two_pow
        rw [if_pos (show 2 ^ k - 1 > 0 by omega)]
        rw [show (2 ^ k - 1 + 1) / 2 - 1 = 2 ^ (k - 1) - 1 by omega]
        rw [update_walk k (k - 1) (by omega) (2 ^ (k - 1) - 1 + 1)
          (by have := Nat.lt_two_pow (k - 1); omega)]
  | succ c ih =>
      intro k fuel hk
      rw [downLoop]
      rw [if_neg (by omega : ¬ (c + 1 = 0))]
      have hfree : (spineTree L k)[2 ^ k - 1]? = some Node.Free := by
        apply spineTree_get_free
        · have h1 : (2 : Nat) ^ k < 2 ^ (L + 1) :=
            Nat.pow_lt_pow_right (by omega) (by omega)
          have h2 : (1 : Nat) ≤ 2 ^ k := Nat.one_le_two_pow
          omega
        · intro e he
          have h1 : (2 : Nat) ^ e < 2 ^ k := Nat.pow_lt_pow_right (by omega) he
          have h2 : (1 : Nat) ≤ 2 ^ e := Nat.one_le_two_pow
          omega
      rw [hfree]
      dsimp only
      rw [show (spineTree L k).set (2 ^ k - 1) Node.Split = spineTree L (k + 1)
        from rfl]
      have hps : (2 : Nat) ^ (k + 1) = 2 ^ k * 2 := pow_succ 2 k
      have h1 : (1 : Nat) ≤ 2 ^ k := Nat.one_le_two_pow
      rw [show (2 ^ k - 1) * 2 + 1 = 2 ^ (k + 1) - 1 by omega]
      rw [show c + 1 - 1 = c from rfl]
      rw [show fuel + (c + 1) = fuel + c + 1 by omega]
      exact ih (k + 1) fuel (by omega)

/-- On a fresh heap of height `L`, the tree search for `0` blocks descends
the leftmost spine and claims the leftmost leaf, block offset `0`. -/
theorem allocate_block_in_tree_zero_fresh (L f : Nat) :
    Heap.allocate_block_in_tree (f + L + 1)
        ⟨[], L, List.replicate (2 ^ (L + 1) - 1) Node.Free, 0⟩ 0 =
      some (some 0, ⟨[], L, allocZeroTree L, 0⟩) := by
  unfold Heap.allocate_block_in_tree
  dsimp only
  rw [show get_tree_levels 0 = 0 from rfl]
  rw [if_neg (by omega : ¬ ((0 : Nat) > L))]
  have hds := downLoop_spine L L 0 f (by omega)
  rw [show spineTree L 0 = List.replicate (2 ^ (L + 1) - 1) Node.Free from rfl,
    show (2 : Nat) ^ 0 - 1 = 0 from rfl] at hds
  rw [hds]
  dsimp only
  rw [show (2 ^ L - 1 - (2 ^ (L - 0) - 1)) * 2 ^ 0 = 0 by simp]

/-- `allocate 0` on a fresh heap of height `L` returns handle `1`, stores
the entry `(0, 0)`, keeps the running total at `0` and leaves the tree as
`allocZeroTree L`. -/
theorem allocate_zero_fresh (L f : Nat) :
    Heap.allocate (f + L + 1)
        ⟨[], L, List.replicate (2 ^ (L + 1) - 1) Node.Free, 0⟩ 0 =
      some (1, ⟨[(0, 0)], L, allocZeroTree L, 0⟩) := by
  unfold Heap.allocate
  dsimp only
  rw [show ((0 + BLOCK_SIZE - 1) % U32) / BLOCK_SIZE = 0 from rfl]
  rw [allocate_block_in_tree_zero_fresh L f]
  dsimp only
  norm_num [BLOCK_SIZE, U32, insertMap]

/-- Claim C10 (confirmed): on a freshly constructed heap, `allocate 0`
succeeds: the needed block count rounds to `0`, the request is served at
leaf level, the call returns handle `1`, inserts the entry `0 ↦ 0` into
the live-size table, leaves `total_size` at `0`, and marks exactly one
node `Full` — the leftmost leaf, index `2^levels − 1`, one whole leaf
block. -/
theorem c10_allocate_zero (reserved fuel : Nat)
    (hfuel : (Heap.new reserved).levels + 1 ≤ fuel) :
    Heap.allocate fuel (Heap.new reserved) 0 =
      some (1, ⟨[(0, 0)], (Heap.new reserved).levels,
        allocZeroTree (Heap.new reserved).levels, 0⟩) ∧
    ∀ j, (allocZeroTree (Heap.new reserved).levels)[j]? = some Node.Full ↔
      j = 2 ^ (Heap.new reserved).levels - 1 := by
  constructor
  · generalize hL : (Heap.new reserved).levels = L at hfuel ⊢
    obtain ⟨f, rfl⟩ : ∃ f, fuel = f + L + 1 := ⟨fuel - L - 1, by omega⟩
    have hnew : Heap.new reserved =
        ⟨[], L, List.replicate (2 ^ (L + 1) - 1) Node.Free, 0⟩ := by
      rw [← hL]
      rfl
    rw [hnew]
    exact allocate_zero_fresh L f
  · intro j
    constructor
    · intro hj
      by_contra hne
      by_cases hlt : j < 2 ^ ((Heap.new reserved).levels + 1) - 1
      · by_cases hsp : ∃ e, e < (Heap.new reserved).levels ∧ j = 2 ^ e - 1
        · obtain ⟨e, he, rfl⟩ := hsp
          rw [allocZeroTree_get_spine _ e he] at hj
          exact Node.noConfusion (Option.some.inj hj)
        · rw [allocZeroTree_get_free _ j hlt hne
            (fun e he hje => hsp ⟨e, he, hje⟩)] at hj
          exact Node.noConfusion (Option.some.inj hj)
      · rw [List.getElem?_eq_none
          (by rw [allocZeroTree_length]; omega)] at hj
        exact Option.noConfusion hj
    · intro hj
      subst hj
      exact allocZeroTree_get_full _

/-- Witness for claim C10 on the four-block heap of the source's tests. -/
theorem c10_allocate_zero_witness :
    (Heap.new (4 * BLOCK_SIZE)).levels + 1 ≤ 100 ∧
    Heap.allocate 100 (Heap.new (4 * BLOCK_SIZE)) 0 =
      some (1, ⟨[(0, 0)], (Heap.new (4 * BLOCK_SIZE)).levels,
        allocZeroTree (Heap.new (4 * BLOCK_SIZE)).levels, 0⟩) :=
  ⟨by decide, (c10_allocate_zero (4 * BLOCK_SIZE) 100 (by decide)).1⟩

end BuddyHeap
